import Mathlib

/-!
Shallow embedding of the freehand-annotation engine of the Murmur app
(`src/components/DrawingCanvas.tsx`, `src/components/DrawingModal.tsx`,
stroke shape from `src/lib/storage.ts`).

Coordinates are embedded as rationals.  The source compares Euclidean
distances (`Math.sqrt(dx*dx+dy*dy)`) against nonnegative thresholds; every
such comparison is embedded equivalently on squared distances
(`sqrt d ≤ r ↔ 0 ≤ r ∧ d ≤ r²` and `sqrt d > t ↔ d > t²` for `t ≥ 0`),
so all definitions stay executable and decidable.
-/

namespace Murmur

/-- Point: `{x: number, y: number}` (DrawingCanvas.tsx lines 5-8). -/
structure Point where
  x : ℚ
  y : ℚ
  deriving DecidableEq, Repr

/-- Squared Euclidean distance between two points; the source computes
`Math.sqrt` of this quantity (DrawingCanvas.tsx lines 134-137, 212-214). -/
def dist2 (p q : Point) : ℚ :=
  (p.x - q.x) * (p.x - q.x) + (p.y - q.y) * (p.y - q.y)

/-- Record `DrawingStroke` from `src/lib/storage.ts` lines 3-9:
`{id, points[], color, strokeWidth, toolType?}`. -/
structure Stroke where
  id : String
  points : List Point
  color : String
  strokeWidth : ℚ
  toolType : Option String
  deriving DecidableEq, Repr

/-- A Drawing is the ordered list of committed strokes (z-order = list order). -/
abbrev Drawing := List Stroke

/-! ## Gesture capture / point simplifier (DrawingCanvas.tsx lines 95-123) -/

/-- Handler `onPanResponderGrant` (lines 95-102): a pointer-down starts the
in-progress buffer as the one-element list holding the down point. -/
def beginStroke (p : Point) : List Point := [p]

/-- The append test of `onPanResponderMove` (lines 111-113): the incoming
point is kept when the buffer is empty or when it differs from the last
retained point by more than 1 in `x` or in `y`
(`Math.abs(prev[last].x - newPoint.x) > 1 || Math.abs(prev[last].y - newPoint.y) > 1`). -/
def shouldAppend (prev : List Point) (q : Point) : Bool :=
  match prev.getLast? with
  | none => true
  | some p => decide (1 < |p.x - q.x|) || decide (1 < |p.y - q.y|)

/-- Handler `onPanResponderMove` (lines 103-123): conditionally extend the buffer. -/
def extendStroke (prev : List Point) (q : Point) : List Point :=
  if shouldAppend prev q then prev ++ [q] else prev

/-- A whole captured pointer lifecycle: pointer-down at `p0`, then the
stream of move points, each filtered by `extendStroke`. -/
def capture (p0 : Point) (moves : List Point) : List Point :=
  moves.foldl extendStroke (beginStroke p0)

/-! ## Eraser engine (DrawingCanvas.tsx lines 126-150) -/

/-- Test `currentStroke.some(eraserPoint => distance <= eraserRadius)`
(lines 133-139): the real comparison `sqrt (dist2 p e) ≤ r` is embedded as
`0 ≤ r ∧ dist2 p e ≤ r * r`, which is equivalent since `sqrt` is nonnegative. -/
def pointHit (eraserPath : List Point) (r : ℚ) (p : Point) : Bool :=
  eraserPath.any (fun e => decide (0 ≤ r) && decide (dist2 p e ≤ r * r))

/-- Filter `stroke.points.filter(strokePoint => !currentStroke.some(...))`
(lines 131-140): keep exactly the points no eraser-path point reaches. -/
def erasePoints (eraserPath : List Point) (r : ℚ) (pts : List Point) : List Point :=
  pts.filter (fun p => !pointHit eraserPath r p)

/-- Per-stroke step of the erase pass (lines 129-146): filter the points,
keep the stroke only if at least 2 points remain (`filteredPoints.length >= 2`),
otherwise map it to `null`. -/
def eraseStroke (eraserPath : List Point) (r : ℚ) (s : Stroke) : Option Stroke :=
  let filteredPoints := erasePoints eraserPath r s.points
  if 2 ≤ filteredPoints.length then some { s with points := filteredPoints } else none

/-- The full erase pass `strokes.map(...).filter(Boolean)` (lines 129-147). -/
def eraseDrawing (d : Drawing) (eraserPath : List Point) (r : ℚ) : Drawing :=
  (d.map (eraseStroke eraserPath r)).reduceOption

/-! ## Canvas controller (DrawingModal.tsx lines 144-184)

The modal's `currentStrokes` state is the authoritative committed Drawing:
the canvas reports every commit/erase through `onDrawingChange`, which the
modal caps to the last 30 strokes. -/

/-- Callback `handleDrawingChange` (DrawingModal.tsx lines 144-152):
`newStrokes.slice(-30)` keeps only the last 30 strokes. -/
def limitStrokes (d : Drawing) : Drawing :=
  d.drop (d.length - 30)

/-- A draw-mode commit as seen by the controller: the canvas appends the new
stroke (`[...strokes, newStroke]`, DrawingCanvas.tsx lines 153-163) and the
modal caps the result. -/
def commitStroke (d : Drawing) (s : Stroke) : Drawing :=
  limitStrokes (d ++ [s])

/-- An erase-mode commit as seen by the controller: the canvas runs the
erase pass (DrawingCanvas.tsx lines 126-150) and the modal caps the result. -/
def eraseCommit (d : Drawing) (eraserPath : List Point) (r : ℚ) : Drawing :=
  limitStrokes (eraseDrawing d eraserPath r)

/-- Handler `handleClear` (DrawingModal.tsx lines 154-157): the Drawing becomes `[]`
(then `handleDrawingChange([])`, which leaves `[]`). -/
def handleClear (_d : Drawing) : Drawing :=
  limitStrokes []

/-- Handler `handleUndo` (DrawingModal.tsx lines 178-184): when the Drawing is
nonempty, drop its last stroke (`currentStrokes.slice(0, -1)`) and run it
through `handleDrawingChange`; otherwise do nothing.  There is no snapshot
stack anywhere in the source. -/
def handleUndo (d : Drawing) : Drawing :=
  if 0 < d.length then limitStrokes d.dropLast else d

/-- Helper `mkStroke` packages a released draw buffer as the new stroke
(DrawingCanvas.tsx lines 153-159); the `id` is produced from the clock and
`Math.random()` in the source and is an opaque input here. -/
def mkStroke (id : String) (buffer : List Point) (color : String)
    (strokeWidth : ℚ) (toolType : String) : Stroke :=
  { id := id, points := buffer, color := color, strokeWidth := strokeWidth,
    toolType := some toolType }

/-- Handler `onPanResponderRelease` (DrawingCanvas.tsx lines 124-172) as a Drawing
transformer, followed by the modal's cap: with an empty buffer nothing
happens (`currentStroke.length > 0` guard); in erase mode the erase pass
runs with `eraserRadius = strokeWidth / 2`; in draw mode the buffer is
committed as a new stroke. -/
def release (isErasing : Bool) (buffer : List Point) (id color : String)
    (strokeWidth : ℚ) (toolType : String) (d : Drawing) : Drawing :=
  if buffer.length = 0 then d
  else if isErasing then eraseCommit d buffer (strokeWidth / 2)
  else commitStroke d (mkStroke id buffer color strokeWidth toolType)

/-! ## Tool profile resolver (DrawingCanvas.tsx lines 49-86) -/

/-- Clamp `Math.max(0.1, Math.min(1.0, pressure))` (line 50). -/
def clampPressure (pressure : ℚ) : ℚ :=
  max (1 / 10) (min 1 pressure)

/-- The visual parameters returned by `getToolCharacteristics`; `strokeCap`
and `strokeJoin` are the constant `'round'` for every tool in the source and
are recorded as constant fields. -/
structure ToolChars where
  opacity : ℚ
  widthVariation : ℚ
  smoothness : ℚ
  strokeCap : String
  strokeJoin : String
  deriving DecidableEq, Repr

/-- Map `getToolCharacteristics` (DrawingCanvas.tsx lines 49-86). -/
def getToolCharacteristics (tool : String) (pressure : ℚ) : ToolChars :=
  let basePressure := clampPressure pressure
  if tool = "pencil" then
    ⟨6/10 + basePressure * (4/10), 5/10 + basePressure * (8/10), 2/10, "round", "round"⟩
  else if tool = "marker" then
    ⟨9/10 + basePressure * (1/10), 8/10 + basePressure * (4/10), 9/10, "round", "round"⟩
  else if tool = "brush" then
    ⟨4/10 + basePressure * (6/10), 3/10 + basePressure * (12/10), 95/100, "round", "round"⟩
  else
    ⟨8/10 + basePressure * (2/10), 8/10 + basePressure * (4/10), 7/10, "round", "round"⟩

/-- Threshold `toolChars.smoothness > 0.7 ? 0.2 : 1.0` (lines 223, 310): the minimum
segment length below which a segment is skipped. -/
def segThreshold (tc : ToolChars) : ℚ :=
  if 7/10 < tc.smoothness then 2/10 else 1

/-! ## Renderer (DrawingCanvas.tsx lines 175-265) -/

/-- A drawable primitive.  A `dot` carries exactly the values the source
computes for a 1-point stroke (lines 181-203): center, diameter
`strokeWidth × widthVariation`, color, opacity (its border radius is
`size/2`, determined by `size`).  A `segment` records the data the source
derives its rotated rectangle from (lines 208-260): the pair of endpoints,
color, tool id and base width; the on-screen length, angle, thickness,
opacity and corner radius are real-valued functions of these fields (via
`Math.sqrt`/`Math.atan2`, irrational in general) and are not needed by any
claim, so they are left determined-but-unrecorded. -/
inductive Prim where
  | dot (center : Point) (size : ℚ) (color : String) (opacity : ℚ)
  | segment (first second : Point) (color : String) (toolId : String) (baseWidth : ℚ)
  deriving DecidableEq, Repr

/-- The segment loop of `renderStroke` (lines 208-262): one primitive per
consecutive pair whose distance exceeds the tool's smoothness threshold
(`distance > threshold` embedded as `threshold² < dist2`, both sides
nonnegative).  `smoothness` does not depend on pressure for any tool, so the
threshold is read from the profile at pressure 1. -/
def renderSegs (tool color : String) (baseWidth : ℚ) : List Point → List Prim
  | a :: b :: rest =>
    (if (segThreshold (getToolCharacteristics tool 1)) *
        (segThreshold (getToolCharacteristics tool 1)) < dist2 a b then
      [Prim.segment a b color tool baseWidth]
    else []) ++ renderSegs tool color baseWidth (b :: rest)
  | _ => []

/-- Function `renderStroke` (DrawingCanvas.tsx lines 175-265). `currentTool` is the
canvas's `toolType` prop, the fallback for `stroke.toolType || toolType`. -/
def renderStroke (currentTool : String) (s : Stroke) : List Prim :=
  match s.points with
  | [] => []
  | [p] =>
    let strokeToolType := s.toolType.getD currentTool
    let toolChars := getToolCharacteristics strokeToolType 1
    let naturalSize := s.strokeWidth * toolChars.widthVariation
    [Prim.dot p naturalSize s.color toolChars.opacity]
  | pts =>
    renderSegs (s.toolType.getD currentTool) s.color s.strokeWidth pts

/-- The segment loop of `renderCurrentStroke` (lines 296-349).  Inside the
`distance > threshold` branch, line 322 reads the identifier
`strokeToolType`, which is declared nowhere in `renderCurrentStroke` nor in
any enclosing scope (it is a local `const` of `renderStroke` only), so
reaching that branch throws a `ReferenceError`; a skipped segment pushes
nothing. -/
def renderCurSegs (tool : String) : List Point → Except String (List Prim)
  | a :: b :: rest =>
    if (segThreshold (getToolCharacteristics tool 1)) *
        (segThreshold (getToolCharacteristics tool 1)) < dist2 a b then
      Except.error "ReferenceError: strokeToolType is not defined"
    else renderCurSegs tool (b :: rest)
  | _ => Except.ok []

/-- Function `renderCurrentStroke` (DrawingCanvas.tsx lines 267-352), over the live
buffer and the canvas props `toolType`, `strokeWidth`, `strokeColor`. -/
def renderCurrentStroke (isDrawing : Bool) (cur : List Point) (toolType : String)
    (strokeWidth : ℚ) (strokeColor : String) : Except String (List Prim) :=
  if !isDrawing || cur.length < 1 then Except.ok []
  else match cur with
  | [p] =>
    let toolChars := getToolCharacteristics toolType 1
    let naturalSize := strokeWidth * toolChars.widthVariation
    Except.ok [Prim.dot p naturalSize strokeColor toolChars.opacity]
  | pts => renderCurSegs toolType pts

/-! ## Basic facts about the controller's stroke cap -/

lemma limitStrokes_length (d : Drawing) : (limitStrokes d).length ≤ 30 := by
  simp only [limitStrokes, List.length_drop]
  omega

lemma limitStrokes_of_le {d : Drawing} (h : d.length ≤ 30) : limitStrokes d = d := by
  simp [limitStrokes, Nat.sub_eq_zero_of_le h]

lemma mem_of_mem_limitStrokes {s : Stroke} {d : Drawing} (h : s ∈ limitStrokes d) :
    s ∈ d :=
  List.mem_of_mem_drop h

lemma commitStroke_length_le (d : Drawing) (s : Stroke) :
    (commitStroke d s).length ≤ 30 :=
  limitStrokes_length _

lemma foldl_commitStroke_length_le_30 (ss : List Stroke) (d : Drawing)
    (hd : d.length ≤ 30) : (ss.foldl commitStroke d).length ≤ 30 := by
  induction ss generalizing d with
  | nil => exact hd
  | cons s ss ih => exact ih (commitStroke d s) (commitStroke_length_le d s)

lemma foldl_commitStroke_length_le (ss : List Stroke) (d : Drawing) :
    (ss.foldl commitStroke d).length ≤ d.length + ss.length := by
  induction ss generalizing d with
  | nil => simp
  | cons s ss ih =>
    have h1 : (commitStroke d s).length ≤ d.length + 1 := by
      simp only [commitStroke, limitStrokes, List.length_drop, List.length_append,
        List.length_cons, List.length_nil]
      omega
    calc ((s :: ss).foldl commitStroke d).length
        = (ss.foldl commitStroke (commitStroke d s)).length := by simp
      _ ≤ (commitStroke d s).length + ss.length := ih (commitStroke d s)
      _ ≤ d.length + (s :: ss).length := by simp only [List.length_cons]; omega

lemma handleUndo_of_le {d : Drawing} (h : d.length ≤ 30) :
    handleUndo d = d.dropLast := by
  unfold handleUndo
  by_cases h0 : 0 < d.length
  · rw [if_pos h0, limitStrokes_of_le]
    simp only [List.length_dropLast]
    omega
  · rw [if_neg h0]
    cases d with
    | nil => rfl
    | cons a l => simp at h0

lemma handleUndo_iter_take {d : Drawing} (h : d.length ≤ 30) (k : ℕ) :
    handleUndo^[k] d = d.take (d.length - k) := by
  induction k generalizing d with
  | zero => simp
  | succ k ih =>
    rw [Function.iterate_succ_apply, handleUndo_of_le h]
    rw [ih (by simp only [List.length_dropLast]; omega)]
    rw [List.dropLast_eq_take, List.take_take, List.length_take]
    congr 1
    omega

/-! ## Claim theorems -/

/-- Claim C9 (confirmed).  `handleDrawingChange` retains at most the cap of
30 strokes: its result has length ≤ 30, it is exactly the final segment
(the most recently committed strokes, in order) of the incoming list, the
preceding (oldest) strokes being silently dropped, and an incoming list at
or below the cap is retained whole. -/
theorem handleDrawingChange_cap30 (ns : Drawing) :
    (limitStrokes ns).length ≤ 30 ∧
    ns.take (ns.length - 30) ++ limitStrokes ns = ns ∧
    (ns.length ≤ 30 → limitStrokes ns = ns) := by
  exact ⟨limitStrokes_length ns, List.take_append_drop _ ns, fun h => limitStrokes_of_le h⟩

/-- Witness for `handleDrawingChange_cap30` at a concrete 31-stroke list. -/
theorem handleDrawingChange_cap30_witness :
    (limitStrokes (List.replicate 31
        ({ id := "s", points := [⟨0, 0⟩], color := "#ffffff", strokeWidth := 2,
           toolType := none } : Stroke))).length ≤ 30 ∧
    ((List.replicate 31
        ({ id := "s", points := [⟨0, 0⟩], color := "#ffffff", strokeWidth := 2,
           toolType := none } : Stroke)).take (31 - 30) ++
      limitStrokes (List.replicate 31
        ({ id := "s", points := [⟨0, 0⟩], color := "#ffffff", strokeWidth := 2,
           toolType := none } : Stroke)) = List.replicate 31
        ({ id := "s", points := [⟨0, 0⟩], color := "#ffffff", strokeWidth := 2,
           toolType := none } : Stroke)) := by
  have h := handleDrawingChange_cap30 (List.replicate 31
    ({ id := "s", points := [⟨0, 0⟩], color := "#ffffff", strokeWidth := 2,
       toolType := none } : Stroke))
  exact ⟨h.1, by simpa using h.2.1⟩

/-- Claim C1 counterexample.  There is no snapshot stack: on the concrete
one-stroke Drawing, Clear followed by Undo yields the empty Drawing, not
the pre-clear Drawing, refuting "Clear and then Undo restores the exact
pre-clear Drawing". -/
theorem clear_then_undo_cex :
    handleUndo (handleClear
        [({ id := "s1", points := [⟨0, 0⟩, ⟨3, 0⟩], color := "#ffffff",
            strokeWidth := 2, toolType := some "pencil" } : Stroke)]) ≠
      [({ id := "s1", points := [⟨0, 0⟩, ⟨3, 0⟩], color := "#ffffff",
          strokeWidth := 2, toolType := some "pencil" } : Stroke)] := by
  decide

/-- Claim C1 (amended).  The controller keeps no snapshot stack: undo drops
the most recently committed stroke of the current Drawing and is a no-op on
an empty Drawing, so Clear followed by Undo yields the empty Drawing, while
Undo directly after a commit (below the cap) restores the pre-commit
Drawing. -/
theorem undo_pops_last_commit (d : Drawing) (s : Stroke) (h : d.length ≤ 29) :
    handleUndo (handleClear d) = [] ∧ handleUndo (commitStroke d s) = d := by
  constructor
  · rfl
  · have hlen : (d ++ [s]).length ≤ 30 := by simp; omega
    rw [commitStroke, limitStrokes_of_le hlen, handleUndo_of_le hlen,
      List.dropLast_concat]

/-- Witness for `undo_pops_last_commit` on a concrete one-stroke Drawing. -/
theorem undo_pops_last_commit_witness :
    handleUndo (handleClear
        [({ id := "a", points := [⟨0, 0⟩], color := "#fff", strokeWidth := 1,
            toolType := none } : Stroke)]) = [] ∧
    handleUndo (commitStroke
        [({ id := "a", points := [⟨0, 0⟩], color := "#fff", strokeWidth := 1,
            toolType := none } : Stroke)]
        ({ id := "b", points := [⟨1, 1⟩, ⟨3, 3⟩], color := "#fff", strokeWidth := 1,
           toolType := some "marker" } : Stroke)) =
      [({ id := "a", points := [⟨0, 0⟩], color := "#fff", strokeWidth := 1,
          toolType := none } : Stroke)] :=
  undo_pops_last_commit _ _ (by decide)

/-- Claim C6 (confirmed).  Starting from the empty Drawing, after any
sequence of draw-mode commits the `k`-th undo always removes the most
recently committed remaining stroke (the retained Drawing after `k` undos
is the prefix obtained by dropping the last `k` strokes), and as many undos
as there were commits restore the exact pre-first-commit empty Drawing. -/
theorem commits_then_undos_empty (ss : List Stroke) :
    (∀ k : ℕ, handleUndo^[k] (ss.foldl commitStroke []) =
      (ss.foldl commitStroke []).take ((ss.foldl commitStroke []).length - k)) ∧
    handleUndo^[ss.length] (ss.foldl commitStroke []) = [] := by
  have h30 : (ss.foldl commitStroke []).length ≤ 30 :=
    foldl_commitStroke_length_le_30 ss [] (by simp)
  have hlen : (ss.foldl commitStroke []).length ≤ ss.length := by
    simpa using foldl_commitStroke_length_le ss []
  refine ⟨fun k => handleUndo_iter_take h30 k, ?_⟩
  rw [handleUndo_iter_take h30, Nat.sub_eq_zero_of_le hlen, List.take_zero]

/-! ## Facts about the erase pass -/

lemma eraseDrawing_eq_filterMap (d : Drawing) (path : List Point) (r : ℚ) :
    eraseDrawing d path r = d.filterMap (eraseStroke path r) := by
  simp [eraseDrawing, List.reduceOption, List.filterMap_map, Function.comp]

lemma erasePoints_idem (path : List Point) (r : ℚ) (pts : List Point) :
    erasePoints path r (erasePoints path r pts) = erasePoints path r pts := by
  simp [erasePoints, List.filter_filter]

lemma mem_eraseDrawing {s' : Stroke} {d : Drawing} {path : List Point} {r : ℚ}
    (h : s' ∈ eraseDrawing d path r) :
    ∃ s ∈ d, 2 ≤ (erasePoints path r s.points).length ∧
      s' = { s with points := erasePoints path r s.points } := by
  rw [eraseDrawing_eq_filterMap] at h
  obtain ⟨s, hs, hmap⟩ := List.mem_filterMap.mp h
  refine ⟨s, hs, ?_⟩
  unfold eraseStroke at hmap
  by_cases h2 : 2 ≤ (erasePoints path r s.points).length
  · rw [if_pos h2] at hmap
    exact ⟨h2, (Option.some_inj.mp hmap).symm⟩
  · rw [if_neg h2] at hmap
    exact absurd hmap (by simp)

lemma eraseStroke_fixed {s' : Stroke} {d : Drawing} {path : List Point} {r : ℚ}
    (h : s' ∈ eraseDrawing d path r) : eraseStroke path r s' = some s' := by
  obtain ⟨s, -, h2, rfl⟩ := mem_eraseDrawing h
  simp only [eraseStroke, erasePoints_idem]
  rw [if_pos h2]

lemma filterMap_eq_self_of_fixed {α : Type} {f : α → Option α} :
    ∀ l : List α, (∀ a ∈ l, f a = some a) → l.filterMap f = l
  | [], _ => rfl
  | a :: l, h => by
    rw [List.filterMap_cons, h a (List.mem_cons_self a l),
      filterMap_eq_self_of_fixed l (fun b hb => h b (List.mem_cons_of_mem a hb))]

/-- Claim C7 (confirmed).  The erase pass is idempotent: running the same
eraser path and radius a second time over the already-erased Drawing
removes no further point and deletes no further stroke. -/
theorem eraseDrawing_idempotent (d : Drawing) (path : List Point) (r : ℚ) :
    eraseDrawing (eraseDrawing d path r) path r = eraseDrawing d path r := by
  rw [eraseDrawing_eq_filterMap (eraseDrawing d path r)]
  exact filterMap_eq_self_of_fixed _ (fun s' hs' => eraseStroke_fixed hs')

lemma map_filterMap_sublist {α β : Type} (f : α → Option α) (g : α → β)
    (h : ∀ a b, f a = some b → g b = g a) :
    ∀ l : List α, ((l.filterMap f).map g).Sublist (l.map g)
  | [] => List.Sublist.refl _
  | a :: l => by
    rw [List.filterMap_cons, List.map_cons]
    cases hfa : f a with
    | none => exact (map_filterMap_sublist f g h l).cons (g a)
    | some b =>
      rw [List.map_cons, h a b hfa]
      exact (map_filterMap_sublist f g h l).cons₂ (g a)

/-- Claim C10 (confirmed).  The erase pass is frame-preserving: projecting
every stroke to its non-point fields `(id, color, strokeWidth, toolType)`,
the erased Drawing is a sublist of the original (so surviving strokes keep
those fields, keep their relative z-order, and no stroke is added), and
each surviving stroke's points form a subsequence of the corresponding
original stroke's points in the original order (so no point is added). -/
theorem eraseDrawing_frame (d : Drawing) (path : List Point) (r : ℚ) :
    (((eraseDrawing d path r).map
        (fun s => (s.id, s.color, s.strokeWidth, s.toolType))).Sublist
      (d.map (fun s => (s.id, s.color, s.strokeWidth, s.toolType)))) ∧
    (∀ i : Fin (eraseDrawing d path r).length, ∃ j : Fin d.length,
      ((eraseDrawing d path r).get i).id = (d.get j).id ∧
      ((eraseDrawing d path r).get i).color = (d.get j).color ∧
      ((eraseDrawing d path r).get i).strokeWidth = (d.get j).strokeWidth ∧
      ((eraseDrawing d path r).get i).toolType = (d.get j).toolType ∧
      ((eraseDrawing d path r).get i).points.Sublist ((d.get j).points)) := by
  constructor
  · rw [eraseDrawing_eq_filterMap]
    refine map_filterMap_sublist _ _ ?_ d
    intro s b hb
    unfold eraseStroke at hb
    by_cases h2 : 2 ≤ (erasePoints path r s.points).length
    · rw [if_pos h2] at hb
      rw [← Option.some_inj.mp hb]
    · rw [if_neg h2] at hb
      exact absurd hb (by simp)
  · intro i
    have hmem : (eraseDrawing d path r).get i ∈ eraseDrawing d path r :=
      List.get_mem _ _ i.isLt
    obtain ⟨s, hs, h2, heq⟩ := mem_eraseDrawing hmem
    obtain ⟨j, hj⟩ := List.mem_iff_get.mp hs
    refine ⟨j, ?_⟩
    rw [hj, heq]
    exact ⟨rfl, rfl, rfl, rfl, List.filter_sublist s.points⟩

/-- Claim C2 counterexample.  With the eraser path `[(5,0)]` and radius `3`,
the stroke `[(4,0),(10,0)]` keeps only one point after the distance filter,
so the erase pass deletes the whole stroke: the point `(10,0)`, although no
eraser-path point is within radius 3 of it (first conjunct), is *not* kept,
contradicting the claim's "a stroke point at (10,0) is kept". -/
theorem erase_iff_dist_cex :
    pointHit [⟨5, 0⟩] 3 ⟨10, 0⟩ = false ∧
    eraseDrawing
        [({ id := "s1", points := [⟨4, 0⟩, ⟨10, 0⟩], color := "#ffffff",
            strokeWidth := 2, toolType := some "pencil" } : Stroke)]
        [⟨5, 0⟩] 3 = [] := by
  norm_num [pointHit, dist2, eraseDrawing, eraseStroke, erasePoints,
    List.filter, List.reduceOption, List.filterMap]

/-- Claim C2 (amended).  Within each stroke, the point-level filter removes a
stroke point iff its Euclidean distance to some eraser-path point is ≤ r
(stated on squared distances together with `0 ≤ r`, equivalently to the
source's `sqrt(...) <= eraserRadius`); additionally the pass deletes every
stroke with fewer than 2 surviving points, removing even its surviving
points, so every stroke of the erased Drawing has at least 2 points, all of
them farther than r from the whole eraser path. -/
theorem erase_iff_dist (path : List Point) (r : ℚ) (pts : List Point)
    (q : Point) (d : Drawing) :
    (q ∈ erasePoints path r pts ↔
      q ∈ pts ∧ ¬ ∃ e ∈ path, 0 ≤ r ∧ dist2 q e ≤ r * r) ∧
    (∀ i : Fin (eraseDrawing d path r).length,
      2 ≤ ((eraseDrawing d path r).get i).points.length ∧
      ∀ q' ∈ ((eraseDrawing d path r).get i).points,
        ¬ ∃ e ∈ path, 0 ≤ r ∧ dist2 q' e ≤ r * r) := by
  constructor
  · simp [erasePoints, List.mem_filter, pointHit, List.any_eq_true]
  · intro i
    have hmem : (eraseDrawing d path r).get i ∈ eraseDrawing d path r :=
      List.get_mem _ _ i.isLt
    obtain ⟨s, -, h2, heq⟩ := mem_eraseDrawing hmem
    constructor
    · rw [heq]
      exact h2
    · intro q' hq'
      rw [heq] at hq'
      have := (List.mem_filter.mp hq').2
      simpa [pointHit, List.any_eq_true] using this

lemma mem_eraseDrawing_two_le {s' : Stroke} {d : Drawing} {path : List Point}
    {r : ℚ} (h : s' ∈ eraseDrawing d path r) : 2 ≤ s'.points.length := by
  obtain ⟨s, -, h2, rfl⟩ := mem_eraseDrawing h
  exact h2

/-- Claim C4 (confirmed).  If every stroke of the current Drawing has at
least one point, then after any release (draw-mode commit or erase-mode
commit, with any buffer and style), any undo and any clear, every stored
stroke still has at least one point; moreover every stroke surviving an
erase pass has at least two points, so no 0-point or 1-point stroke
survives erasure. -/
theorem committed_strokes_nonempty (d : Drawing)
    (hd : ∀ s ∈ d, 1 ≤ s.points.length) :
    (∀ (isErasing : Bool) (buffer : List Point) (id color : String) (w : ℚ)
      (tool : String), ∀ s ∈ release isErasing buffer id color w tool d,
        1 ≤ s.points.length) ∧
    (∀ s ∈ handleUndo d, 1 ≤ s.points.length) ∧
    (∀ s ∈ handleClear d, 1 ≤ s.points.length) ∧
    (∀ (path : List Point) (r : ℚ), ∀ s ∈ eraseDrawing d path r,
      2 ≤ s.points.length) := by
  refine ⟨?_, ?_, ?_, fun path r s hs => mem_eraseDrawing_two_le hs⟩
  · intro isE buf id c w t s hs
    unfold release at hs
    split at hs
    · exact hd s hs
    · next hb =>
      split at hs
      · have h2 := mem_eraseDrawing_two_le (mem_of_mem_limitStrokes hs)
        omega
      · rcases List.mem_append.mp (mem_of_mem_limitStrokes hs) with h | h
        · exact hd s h
        · have hs' : s = mkStroke id buf c w t := List.mem_singleton.mp h
          rw [hs']
          simpa [mkStroke] using Nat.one_le_iff_ne_zero.mpr hb
  · intro s hs
    unfold handleUndo at hs
    split at hs
    · exact hd s ((List.dropLast_sublist d).subset (mem_of_mem_limitStrokes hs))
    · exact hd s hs
  · intro s hs
    simp [handleClear, limitStrokes] at hs

/-- Witness for `committed_strokes_nonempty` on a concrete one-stroke
Drawing with a single-point stroke. -/
theorem committed_strokes_nonempty_witness :
    (∀ (isErasing : Bool) (buffer : List Point) (id color : String) (w : ℚ)
      (tool : String), ∀ s ∈ release isErasing buffer id color w tool
        [({ id := "w", points := [⟨7, 7⟩], color := "#000000", strokeWidth := 3,
            toolType := some "brush" } : Stroke)],
        1 ≤ s.points.length) ∧
    (∀ s ∈ handleUndo
        [({ id := "w", points := [⟨7, 7⟩], color := "#000000", strokeWidth := 3,
            toolType := some "brush" } : Stroke)], 1 ≤ s.points.length) ∧
    (∀ s ∈ handleClear
        [({ id := "w", points := [⟨7, 7⟩], color := "#000000", strokeWidth := 3,
            toolType := some "brush" } : Stroke)], 1 ≤ s.points.length) ∧
    (∀ (path : List Point) (r : ℚ), ∀ s ∈ eraseDrawing
        [({ id := "w", points := [⟨7, 7⟩], color := "#000000", strokeWidth := 3,
            toolType := some "brush" } : Stroke)] path r,
        2 ≤ s.points.length) :=
  committed_strokes_nonempty _ (by simp)

/-! ## Facts about the point simplifier -/

lemma shouldAppend_dist {prev : List Point} {p q : Point}
    (hp : prev.getLast? = some p) (hs : shouldAppend prev q = true) :
    1 < dist2 p q := by
  unfold shouldAppend at hs
  rw [hp] at hs
  simp only [Bool.or_eq_true, decide_eq_true_eq] at hs
  have key : ∀ a b : ℚ, 1 < |a| → 1 < a * a + b * b := by
    intro a b ha
    have h1 : (1 : ℚ) * 1 < |a| * |a| :=
      mul_lt_mul'' ha ha (by norm_num) (by norm_num)
    rw [abs_mul_abs_self] at h1
    nlinarith [mul_self_nonneg b]
  rcases hs with hx | hy
  · simpa [dist2] using key (p.x - q.x) (p.y - q.y) hx
  · have := key (p.y - q.y) (p.x - q.x) hy
    simp only [dist2]
    linarith

lemma extendStroke_ne_nil (l : List Point) (q : Point) : extendStroke l q ≠ [] := by
  unfold extendStroke
  split
  · simp
  · cases l with
    | nil => simp [shouldAppend] at *
    | cons a t => simp

lemma extendStroke_head (l : List Point) (q : Point) (hl : l ≠ []) :
    (extendStroke l q).head? = l.head? := by
  unfold extendStroke
  split
  · cases l with
    | nil => exact absurd rfl hl
    | cons a t => simp
  · rfl

lemma extendStroke_chain {l : List Point} (q : Point)
    (h : List.Chain' (fun a b => (1 : ℚ) < dist2 a b) l) :
    List.Chain' (fun a b => (1 : ℚ) < dist2 a b) (extendStroke l q) := by
  unfold extendStroke
  split
  · next hs =>
    cases hl : l.getLast? with
    | none =>
      rw [List.getLast?_eq_none_iff.mp hl]
      exact List.chain'_singleton q
    | some p =>
      refine List.Chain'.append h (List.chain'_singleton q) ?_
      intro x hx y hy
      rw [hl, Option.mem_def, Option.some_inj] at hx
      simp only [List.head?_cons, Option.mem_def, Option.some_inj] at hy
      rw [← hx, ← hy]
      exact shouldAppend_dist hl hs
  · exact h

lemma capture_foldl_inv (moves : List Point) :
    ∀ l : List Point, l ≠ [] →
      List.Chain' (fun a b => (1 : ℚ) < dist2 a b) l →
      (moves.foldl extendStroke l ≠ [] ∧
        (moves.foldl extendStroke l).head? = l.head? ∧
        List.Chain' (fun a b => (1 : ℚ) < dist2 a b)
          (moves.foldl extendStroke l)) := by
  induction moves with
  | nil => exact fun l hl hc => ⟨hl, rfl, hc⟩
  | cons m ms ih =>
    intro l hl hc
    have h1 := extendStroke_ne_nil l m
    have h2 := extendStroke_chain m hc
    obtain ⟨ha, hb, hcc⟩ := ih (extendStroke l m) h1 h2
    refine ⟨ha, ?_, ?_⟩
    · simp only [List.foldl_cons]
      rw [hb, extendStroke_head l m hl]
    · simp only [List.foldl_cons]
      exact hcc

/-- Claim C3 (confirmed).  For every captured point stream the simplifier
retains the first point (the head of the captured buffer is the
pointer-down point), any two consecutive retained points are farther than
δ = 1 apart in Euclidean distance (stated as squared distance > 1), and a
move point is appended only if its Euclidean distance from the last
retained point exceeds δ: whenever `extendStroke` actually changes the
buffer, the new point is farther than 1 from the previously last point. -/
theorem simplifier_first_and_spacing (p0 : Point) (moves : List Point)
    (prev : List Point) (q p : Point) (hp : prev.getLast? = some p)
    (hne : extendStroke prev q ≠ prev) :
    (capture p0 moves).head? = some p0 ∧
    List.Chain' (fun a b => (1 : ℚ) < dist2 a b) (capture p0 moves) ∧
    1 < dist2 p q := by
  obtain ⟨-, hh, hc⟩ := capture_foldl_inv moves [p0] (by simp)
    (List.chain'_singleton p0)
  refine ⟨by simpa [capture, beginStroke] using hh, by simpa [capture, beginStroke] using hc, ?_⟩
  by_cases hs : shouldAppend prev q = true
  · exact shouldAppend_dist hp hs
  · unfold extendStroke at hne
    rw [if_neg hs] at hne
    exact absurd rfl hne

/-- Witness for `simplifier_first_and_spacing`: pointer-down at `(0,0)`,
one move to `(3,0)`, which the buffer `[(0,0)]` does append. -/
theorem simplifier_first_and_spacing_witness :
    (capture ⟨0, 0⟩ [⟨3, 0⟩]).head? = some (⟨0, 0⟩ : Point) ∧
    List.Chain' (fun a b => (1 : ℚ) < dist2 a b) (capture ⟨0, 0⟩ [⟨3, 0⟩]) ∧
    (1 : ℚ) < dist2 ⟨0, 0⟩ ⟨3, 0⟩ :=
  simplifier_first_and_spacing ⟨0, 0⟩ [⟨3, 0⟩] [⟨0, 0⟩] ⟨3, 0⟩ ⟨0, 0⟩ rfl
    (by norm_num [extendStroke, shouldAppend])

/-! ## Facts about the renderer -/

lemma renderSegs_length (tool color : String) (w : ℚ) :
    ∀ pts : List Point, (renderSegs tool color w pts).length ≤ pts.length - 1
  | [] => by simp [renderSegs]
  | [a] => by simp [renderSegs]
  | a :: b :: rest => by
    have ih := renderSegs_length tool color w (b :: rest)
    simp only [renderSegs, List.length_append, List.length_cons] at ih ⊢
    split
    · simp only [List.length_cons, List.length_nil]
      omega
    · simp only [List.length_nil]
      omega

/-- Claim C8 (confirmed).  Rendering a 1-point stroke produces exactly one
filled circular dot primitive whose diameter is
`strokeWidth × widthVariation` and whose opacity is the tool profile's
opacity (both at full pressure), and rendering an N-point stroke with
N > 1 produces at most N − 1 primitives (one per consecutive pair, pairs
below the smoothness threshold skipped). -/
theorem renderStroke_dot_and_count (tool : String) (s : Stroke) :
    (∀ p, s.points = [p] →
      renderStroke tool s =
        [Prim.dot p
          (s.strokeWidth *
            (getToolCharacteristics (s.toolType.getD tool) 1).widthVariation)
          s.color ((getToolCharacteristics (s.toolType.getD tool) 1).opacity)]) ∧
    (2 ≤ s.points.length → (renderStroke tool s).length ≤ s.points.length - 1) := by
  constructor
  · intro p hp
    simp [renderStroke, hp]
  · intro h2
    cases hp : s.points with
    | nil => rw [hp] at h2; simp at h2
    | cons a t =>
      cases t with
      | nil => rw [hp] at h2; simp at h2
      | cons b rest =>
        have := renderSegs_length (s.toolType.getD tool) s.color s.strokeWidth
          (a :: b :: rest)
        simpa [renderStroke, hp] using this

/-- Witness for `renderStroke_dot_and_count`: a concrete 1-point pencil
stroke renders as the dot primitive, and a concrete 3-point stroke renders
as at most 2 primitives. -/
theorem renderStroke_dot_and_count_witness :
    renderStroke "pencil"
        ({ id := "d1", points := [⟨1, 1⟩], color := "#abcabc", strokeWidth := 2,
           toolType := none } : Stroke) =
      [Prim.dot ⟨1, 1⟩
        (2 * (getToolCharacteristics "pencil" 1).widthVariation) "#abcabc"
        ((getToolCharacteristics "pencil" 1).opacity)] ∧
    (renderStroke "pencil"
        ({ id := "d2", points := [⟨0, 0⟩, ⟨10, 0⟩, ⟨10, 5⟩], color := "#abcabc",
           strokeWidth := 2, toolType := some "marker" } : Stroke)).length ≤ 2 :=
  ⟨(renderStroke_dot_and_count "pencil" _).1 ⟨1, 1⟩ rfl,
    (renderStroke_dot_and_count "pencil" _).2 (by simp)⟩

/-- Claim C5 (code bug).  Rendering an in-progress two-point buffer whose
segment exceeds the smoothness threshold reaches line 322 of
`DrawingCanvas.tsx`, which reads the undeclared identifier
`strokeToolType` (a local constant of `renderStroke` only), so the render
raises a `ReferenceError` instead of never raising: evaluated on the
concrete buffer `[(0,0),(10,0)]` with tool `pencil`, the embedded
`renderCurrentStroke` yields the error. -/
theorem renderCurrentStroke_crash :
    renderCurrentStroke true [⟨0, 0⟩, ⟨10, 0⟩] "pencil" 2 "#ffffff" =
      Except.error "ReferenceError: strokeToolType is not defined" := by
  norm_num [renderCurrentStroke, renderCurSegs, segThreshold,
    getToolCharacteristics, clampPressure, dist2]

end Murmur
